import Mathlib

/-!
Verification of the face-recognition numeric kernel and database
orchestrator.  Matrices (`matrix_t`) are shallowly embedded as a record of
`rows`, `cols` and a contiguous column-major buffer; double-precision
entries are modelled as exact rationals (exact reals where a square root
occurs).  Each C function of the matrix library and of `database.c` is
translated to a Lean definition of the same name; asserts become `Option`
guards and file streams become token lists.
-/

/-- A matrix: `rows`, `cols` and a contiguous column-major buffer,
mirroring `matrix_t`.  Element (i,j) sits at linear index `i + j * rows`. -/
structure Mat (α : Type) where
  rows : Nat
  cols : Nat
  data : List α
deriving DecidableEq, Repr

/-- Buffer invariant of the data model: positive dimensions (the allocation
precondition `rows, cols > 0`) and buffer length `rows * cols`. -/
def Mat.wf {α : Type} (M : Mat α) : Prop :=
  0 < M.rows ∧ 0 < M.cols ∧ M.data.length = M.rows * M.cols

instance {α : Type} (M : Mat α) : Decidable M.wf := by
  unfold Mat.wf; infer_instance

/-- The C access macro `elem(M, i, j) = M.data[i + j * M.rows]`. -/
def Mat.elem {α : Type} [Zero α] (M : Mat α) (i j : Nat) : α :=
  M.data.getD (i + j * M.rows) 0

/-- Build the `rows × cols` matrix whose element (i,j) is `f i j`; this is
how loops of the form `for i, for j: elem(C,i,j) = ...` are rendered
(the column-major buffer holds `f (k % rows) (k / rows)` at index `k`). -/
def mkMat {α : Type} (rows cols : Nat) (f : Nat → Nat → α) : Mat α :=
  ⟨rows, cols, (List.range (rows * cols)).map (fun k => f (k % rows) (k / rows))⟩

/-- `m_identity`: zero-filled `rows × rows` buffer with 1 on the diagonal. -/
def m_identity {α : Type} [Zero α] [One α] (rows : Nat) : Mat α :=
  mkMat rows rows (fun i j => if i = j then 1 else 0)

/-- `m_copy_columns (M, begin, end)`: asserts `0 <= begin < end <= M->cols`
(modelled by the `Option` guard), then `memcpy`s the contiguous column range
starting at `&elem(M, 0, begin)` — i.e. drops `begin * rows` buffer entries
and takes `rows * (end - begin)`. -/
def m_copy_columns {α : Type} (M : Mat α) (b e : Int) : Option (Mat α) :=
  if 0 ≤ b ∧ b < e ∧ e ≤ (M.cols : Int) then
    some ⟨M.rows, (e - b).toNat,
          (M.data.drop (b.toNat * M.rows)).take (M.rows * (e - b).toNat)⟩
  else none

/-- `m_copy M = m_copy_columns(M, 0, M->cols)`. -/
def m_copy {α : Type} (M : Mat α) : Option (Mat α) :=
  m_copy_columns M 0 (M.cols : Int)

/-- `m_elem_mult(M, c)`: multiply every element by the scalar `c`. -/
def m_elem_mult {α : Type} [Zero α] [Mul α] (M : Mat α) (c : α) : Mat α :=
  mkMat M.rows M.cols (fun i j => M.elem i j * c)

/-- `m_mean_column`: column vector of row-wise sums divided by `M->cols`. -/
def m_mean_column {α : Type} [Field α] (M : Mat α) : Mat α :=
  mkMat M.rows 1 (fun i _ => (∑ k in Finset.range M.cols, M.elem i k) / (M.cols : α))

/-- `m_mean_row`: row vector of column-wise sums divided by `M->rows`. -/
def m_mean_row {α : Type} [Field α] (M : Mat α) : Mat α :=
  mkMat 1 M.cols (fun _ j => (∑ k in Finset.range M.rows, M.elem k j) / (M.rows : α))

/-- `m_subtract_columns(M, a)`: subtract the column vector `a` from every
column of `M` (the source mutates `M`; the model returns the new matrix). -/
def m_subtract_columns {α : Type} [Zero α] [Sub α] (M a : Mat α) : Mat α :=
  mkMat M.rows M.cols (fun i j => M.elem i j - a.elem i 0)

/-- `m_subtract_rows(M, a)`: subtract the row vector `a` from every row. -/
def m_subtract_rows {α : Type} [Zero α] [Sub α] (M a : Mat α) : Mat α :=
  mkMat M.rows M.cols (fun i j => M.elem i j - a.elem 0 j)

/-- `m_product(A, B)`: asserts `A->cols == B->rows`, then a single
`dgemm(NoTrans, NoTrans)` with alpha 1, beta 0 into a zeroed buffer:
`C(i,j) = sum_k A(i,k) * B(k,j)`. -/
def m_product {α : Type} [Field α] (A B : Mat α) : Option (Mat α) :=
  if A.cols = B.rows then
    some (mkMat A.rows B.cols
      (fun i j => ∑ k in Finset.range A.cols, A.elem i k * B.elem k j))
  else none

/-- `m_covariance` of the matrix library shipped with the database
orchestrator (part_002): copy `M`, subtract the mean column from every
column, form `C = A * A_tr` by `dgemm(NoTrans, Trans)` over `A->rows x
A->rows` with inner length `A->cols`, then scale by `1 / c` where
`c = (M->cols > 1) ? M->cols - 1 : 1`. -/
def m_covariance {α : Type} [Field α] (M : Mat α) : Option (Mat α) :=
  (m_copy M).map (fun A0 =>
    let mean := m_mean_column A0
    let A := m_subtract_columns A0 mean
    let C := mkMat A.rows A.rows
      (fun i j => ∑ k in Finset.range A.cols, A.elem i k * A.elem j k)
    let c : α := if 1 < M.cols then (M.cols : α) - 1 else 1
    m_elem_mult C (1 / c))

/-- `m_covariance` of the CUDA-capable matrix library (part_001): copy `M`,
subtract the mean row from every row, form `C = A_tr * A` by
`dgemm(Trans, NoTrans)` over `A->cols x A->cols` with inner length
`A->rows`, then scale by `1 / c` where
`c = (M->rows > 1) ? M->rows - 1 : 1`. -/
def m_covariance_gpu {α : Type} [Field α] (M : Mat α) : Option (Mat α) :=
  (m_copy M).map (fun A0 =>
    let mu := m_mean_row A0
    let A := m_subtract_rows A0 mu
    let C := mkMat A.cols A.cols
      (fun i j => ∑ k in Finset.range A.rows, A.elem k i * A.elem k j)
    let c : α := if 1 < M.rows then (M.rows : α) - 1 else 1
    m_elem_mult C (1 / c))

/-- Modelled from the spec's words (§4.2 `covariance(M)`): treat the columns
of `M` as observations, form the mean-removed `A = M - mean * 1_tr`
(subtracting the mean column from every column) and return
`(1/(n-1)) * A * A_tr`, an `M.rows × M.rows` matrix, where `n` is the
column count and the divisor floors at 1 when `n <= 1`. -/
def covariance_spec {α : Type} [Field α] (M : Mat α) : Mat α :=
  let n := M.cols
  let mean : Nat → α := fun i => (∑ j in Finset.range n, M.elem i j) / (n : α)
  let A : Nat → Nat → α := fun i j => M.elem i j - mean i
  let divisor : α := if n ≤ 1 then 1 else (n : α) - 1
  mkMat M.rows M.rows
    (fun i j => (1 / divisor) * ∑ k in Finset.range n, A i k * A j k)

/-- Closed form of `m_covariance_gpu`, established by
`m_covariance_gpu_char` below. -/
def covariance_gpu_form {α : Type} [Field α] (M : Mat α) : Mat α :=
  let meanr : Nat → α := fun j => (∑ k in Finset.range M.rows, M.elem k j) / (M.rows : α)
  let A : Nat → Nat → α := fun i j => M.elem i j - meanr j
  let c : α := if 1 < M.rows then (M.rows : α) - 1 else 1
  mkMat M.cols M.cols
    (fun i j => (∑ k in Finset.range M.rows, A k i * A k j) * (1 / c))

/-- `m_reshape(M, newRows, newCols)`: asserts the element counts agree, then
for every row-major position `i` sets
`R(i / newCols, i % newCols) = M(i / M->cols, i % M->cols)`; each target
cell (r, c) is written once, at `i = r * newCols + c`. -/
def m_reshape {α : Type} [Zero α] (M : Mat α) (newNumRows newNumCols : Nat) :
    Option (Mat α) :=
  if M.rows * M.cols = newNumRows * newNumCols then
    some (mkMat newNumRows newNumCols
      (fun r c => M.elem ((r * newNumCols + c) / M.cols) ((r * newNumCols + c) % M.cols)))
  else none

/-- `m_dist_L2`: squared Euclidean distance between column `i` of `A` and
column `j` of `B`; the loop bound is `A->rows`. -/
def m_dist_L2 {α : Type} [Field α] (A : Mat α) (i : Nat) (B : Mat α) (j : Nat) : α :=
  ∑ k in Finset.range A.rows, (A.elem k i - B.elem k j) * (A.elem k i - B.elem k j)

/-- `m_dist_COS` (part_002): negated cosine similarity
`-(x . y) / (sqrt(|x|^2) * sqrt(|y|^2))` between column `i` of `A` and
column `j` of `B`; all three accumulation loops run over `A->rows`. -/
noncomputable def m_dist_COS (A : Mat ℝ) (i : Nat) (B : Mat ℝ) (j : Nat) : ℝ :=
  let x_dot_y := ∑ k in Finset.range A.rows, A.elem k i * B.elem k j
  let abs_x := Real.sqrt (∑ k in Finset.range A.rows, A.elem k i * A.elem k i)
  let abs_y := Real.sqrt (∑ k in Finset.range A.rows, B.elem k j * B.elem k j)
  let num := -x_dot_y
  num / (abs_x * abs_y)

/-- One iteration of the `nearest_neighbor` scan: update the running
`(min_index, min_dist)` pair when `min_dist == -1 || dist < min_dist`. -/
def nnStep {α : Type} [LinearOrderedField α] (d : Nat → α) (acc : Int × α) (j : Nat) :
    Int × α :=
  if acc.2 = -1 ∨ d j < acc.2 then ((j : Int), d j) else acc

/-- `nearest_neighbor(P, P_test, dist_func)`: linear scan over the columns
of `P` starting from `(min_index, min_dist) = (-1, -1)`. -/
def nearest_neighbor {α : Type} [LinearOrderedField α] (P P_test : Mat α)
    (dist_func : Mat α → Nat → Mat α → Nat → α) : Int :=
  ((List.range P.cols).foldl (nnStep (fun j => dist_func P_test 0 P j)) (-1, -1)).1

/-- `IdentityLayer::compute`: returns NULL in lieu of a model. -/
def identityLayer_compute {α β : Type} (X : Mat α) (y : List β) (c : Int) :
    Option (Mat α) :=
  none

/-- `IdentityLayer::project`: returns `m_copy(X)`. -/
def identityLayer_project {α : Type} (X : Mat α) : Option (Mat α) :=
  m_copy X

/-- One record of the binary stream written by `m_fwrite`: an `int`
(rows or cols) or a double-precision value. -/
inductive Tok (α : Type) where
  | int : Int → Tok α
  | flt : α → Tok α
deriving DecidableEq, Repr

/-- `m_fwrite`: write `rows`, `cols`, then the `rows * cols` buffer entries
in memory (column-major) order. -/
def m_fwrite {α : Type} (M : Mat α) : List (Tok α) :=
  Tok.int (M.rows : Int) :: Tok.int (M.cols : Int) :: M.data.map Tok.flt

/-- Read `n` doubles from the stream; a short or ill-typed read is the
truncated-data I/O failure of the error model. -/
def takeFloats {α : Type} : Nat → List (Tok α) → Option (List α × List (Tok α))
  | 0, s => some ([], s)
  | n + 1, (Tok.flt x) :: s =>
    (takeFloats n s).map (fun p => (x :: p.1, p.2))
  | _ + 1, (Tok.int _) :: _ => none
  | _ + 1, [] => none

/-- `m_fread`: read `rows`, `cols`, then `rows * cols` doubles into a new
matrix, returning the unconsumed remainder of the stream. -/
def m_fread {α : Type} (s : List (Tok α)) : Option (Mat α × List (Tok α)) :=
  match s with
  | (Tok.int r) :: (Tok.int c) :: rest =>
    (takeFloats (r.toNat * c.toNat) rest).map
      (fun p => (⟨r.toNat, c.toNat, p.1⟩, p.2))
  | _ => none

/-- Database state (`database_t`): enabled-algorithm flags, counts, mean
face and one transposed basis plus training projection per algorithm.  The
manifest entries (class id, filename) are outside the claims below and are
omitted. -/
structure Database (α : Type) where
  pca : Bool
  lda : Bool
  ica : Bool
  num_images : Nat
  num_dimensions : Nat
  mean_face : Mat α
  W_pca_tr : Mat α
  P_pca : Mat α
  W_lda_tr : Mat α
  P_lda : Mat α
  W_ica_tr : Mat α
  P_ica : Mat α
deriving DecidableEq

/-- `db_save`'s binary blob: the mean face, then for each enabled algorithm
in the fixed order PCA, LDA, ICA its transposed basis and its training
projection (the PCA pair is written whenever any algorithm is enabled). -/
def db_save_data {α : Type} (db : Database α) : List (Tok α) :=
  m_fwrite db.mean_face ++
  (if db.pca || db.lda || db.ica then m_fwrite db.W_pca_tr ++ m_fwrite db.P_pca else []) ++
  (if db.lda then m_fwrite db.W_lda_tr ++ m_fwrite db.P_lda else []) ++
  (if db.ica then m_fwrite db.W_ica_tr ++ m_fwrite db.P_ica else [])

/-- One conditional `if (flag) { W = m_fread; P = m_fread; }` block of
`db_load`; a disabled algorithm's matrices stay unread (NULL in C,
modelled by the empty matrix). -/
def db_load_block {α : Type} (flag : Bool) (s : List (Tok α)) :
    Option (Mat α × Mat α × List (Tok α)) :=
  if flag then
    match m_fread s with
    | none => none
    | some (W, s1) =>
      match m_fread s1 with
      | none => none
      | some (P, s2) => some (W, P, s2)
  else some (⟨0, 0, []⟩, ⟨0, 0, []⟩, s)

/-- `db_load`'s reading of the binary blob: mean face, then the conditional
PCA, LDA, ICA blocks, then `num_images = P_pca->cols` and
`num_dimensions = mean_face->rows` — both from matrix shapes, not from the
manifest.  When no algorithm is enabled the count line dereferences the
NULL `P_pca`; that undefined behaviour is modelled as failure. -/
def db_load_data {α : Type} (pca lda ica : Bool) (s : List (Tok α)) :
    Option (Database α) :=
  match m_fread s with
  | none => none
  | some (mean, s1) =>
    if pca || lda || ica then
      match m_fread s1 with
      | none => none
      | some (Wp, s2) =>
        match m_fread s2 with
        | none => none
        | some (Pp, s3) =>
          match db_load_block lda s3 with
          | none => none
          | some (Wl, Pl, s4) =>
            match db_load_block ica s4 with
            | none => none
            | some (Wi, Pi, _) =>
              some ⟨pca, lda, ica, Pp.cols, mean.rows, mean, Wp, Pp, Wl, Pl, Wi, Pi⟩
    else none

/-! ### Basic lemmas about the embedding -/

@[simp]
theorem mkMat_rows {α : Type} (r c : Nat) (f : Nat → Nat → α) : (mkMat r c f).rows = r :=
  rfl

@[simp]
theorem mkMat_cols {α : Type} (r c : Nat) (f : Nat → Nat → α) : (mkMat r c f).cols = c :=
  rfl

/-- Element access on a loop-built matrix recovers the loop body. -/
theorem mkMat_elem {α : Type} [Zero α] (r c : Nat) (f : Nat → Nat → α) (i j : Nat)
    (hi : i < r) (hj : j < c) : (mkMat r c f).elem i j = f i j := by
  have h2 : r + j * r = (j + 1) * r := by ring
  have h3 : (j + 1) * r ≤ c * r := Nat.mul_le_mul_right r hj
  have h4 : c * r = r * c := Nat.mul_comm c r
  have hk : i + j * r < r * c := by omega
  show (List.map _ (List.range (r * c))).getD (i + j * r) 0 = f i j
  rw [List.getD_eq_getElem?_getD, List.getElem?_map, List.getElem?_range hk]
  simp only [Option.map_some', Option.getD_some]
  have hmod : (i + j * r) % r = i := by
    rw [Nat.add_mul_mod_self_right]; exact Nat.mod_eq_of_lt hi
  have hdiv : (i + j * r) / r = j := by
    rw [Nat.add_mul_div_right _ _ (by omega : 0 < r), Nat.div_eq_of_lt hi]
    omega
  rw [hmod, hdiv]

/-- Two loop-built matrices with the same body on in-range indices agree. -/
theorem mkMat_congr {α : Type} (r c : Nat) (f g : Nat → Nat → α)
    (h : ∀ i, i < r → ∀ j, j < c → f i j = g i j) : mkMat r c f = mkMat r c g := by
  unfold mkMat
  congr 1
  apply List.map_congr_left
  intro k hk
  have hk' : k < r * c := List.mem_range.mp hk
  have hr : 0 < r := by
    rcases Nat.eq_zero_or_pos r with h0 | h0
    · subst h0; simp at hk'
    · exact h0
  refine h _ (Nat.mod_lt _ hr) _ ?_
  rw [Nat.div_lt_iff_lt_mul hr, Nat.mul_comm c r]
  exact hk'

/-- On a well-formed matrix `m_copy` succeeds and reproduces the matrix. -/
theorem m_copy_wf {α : Type} {M : Mat α} (h : M.wf) : m_copy M = some M := by
  obtain ⟨hr, hc, hl⟩ := h
  unfold m_copy m_copy_columns
  rw [if_pos ⟨le_refl 0, by exact_mod_cast hc, le_refl _⟩]
  cases M with
  | mk rows cols data =>
    simp only at hl
    simp only [sub_zero, Int.toNat_natCast, Int.toNat_zero, List.drop_zero, Nat.zero_mul]
    congr 2
    rw [← hl]
    exact List.take_length data

/-- Reading back `n` doubles just written recovers them and the rest. -/
theorem takeFloats_append {α : Type} (xs : List α) (rest : List (Tok α)) :
    takeFloats xs.length (xs.map Tok.flt ++ rest) = some (xs, rest) := by
  induction xs with
  | nil => simp [takeFloats]
  | cons x xs ih => simp [takeFloats, ih]

/-- Binary round-trip with a remainder: `m_fread` consumes exactly the
tokens `m_fwrite` produced and reconstructs the matrix. -/
theorem m_fread_fwrite {α : Type} {M : Mat α} (h : M.wf) (rest : List (Tok α)) :
    m_fread (m_fwrite M ++ rest) = some (M, rest) := by
  obtain ⟨hr, hc, hl⟩ := h
  cases M with
  | mk rows cols data =>
    simp only at hl
    simp only [m_fwrite, m_fread, List.cons_append]
    rw [Int.toNat_natCast, Int.toNat_natCast, ← hl, takeFloats_append]
    rfl

/-- Binary round-trip at the end of a stream. -/
theorem m_fread_fwrite_nil {α : Type} {M : Mat α} (h : M.wf) :
    m_fread (m_fwrite M) = some (M, []) := by
  have h2 := m_fread_fwrite h []
  rwa [List.append_nil] at h2

/-- `m_covariance` (part_002) computes exactly the spec's covariance. -/
theorem m_covariance_char {α : Type} [Field α] {M : Mat α} (h : M.wf) :
    m_covariance M = some (covariance_spec M) := by
  rw [m_covariance, m_copy_wf h, Option.map_some']
  congr 1
  have hA : ∀ a, a < M.rows → ∀ k, k < M.cols →
      (m_subtract_columns M (m_mean_column M)).elem a k
        = M.elem a k - (∑ t in Finset.range M.cols, M.elem a t) / (M.cols : α) := by
    intro a ha k hk
    unfold m_subtract_columns
    rw [mkMat_elem _ _ _ _ _ ha hk]
    unfold m_mean_column
    rw [mkMat_elem _ _ _ _ _ ha (by omega : (0 : Nat) < 1)]
  unfold covariance_spec m_elem_mult
  simp only [m_subtract_columns, m_mean_column, mkMat_rows, mkMat_cols]
  apply mkMat_congr
  intro i hi j hj
  rw [mkMat_elem _ _ _ _ _ hi hj]
  have hsum : (∑ k in Finset.range M.cols,
        (mkMat M.rows M.cols fun a b =>
          M.elem a b - (mkMat M.rows 1 fun a _ =>
            (∑ t in Finset.range M.cols, M.elem a t) / (M.cols : α)).elem a 0).elem i k *
        (mkMat M.rows M.cols fun a b =>
          M.elem a b - (mkMat M.rows 1 fun a _ =>
            (∑ t in Finset.range M.cols, M.elem a t) / (M.cols : α)).elem a 0).elem j k)
      = ∑ k in Finset.range M.cols,
          (M.elem i k - (∑ t in Finset.range M.cols, M.elem i t) / (M.cols : α)) *
          (M.elem j k - (∑ t in Finset.range M.cols, M.elem j t) / (M.cols : α)) := by
    refine Finset.sum_congr rfl ?_
    intro k hk
    have hk' := Finset.mem_range.mp hk
    have e1 := hA i hi k hk'
    have e2 := hA j hj k hk'
    unfold m_subtract_columns m_mean_column at e1 e2
    rw [e1, e2]
  rw [hsum]
  have hcd : (if 1 < M.cols then (M.cols : α) - 1 else 1)
      = (if M.cols ≤ 1 then 1 else (M.cols : α) - 1) := by
    rcases Nat.lt_or_ge 1 M.cols with h1 | h1
    · rw [if_pos h1, if_neg (by omega)]
    · rw [if_neg (by omega), if_pos (by omega)]
  rw [hcd, mul_comm]

/-- `m_covariance_gpu` (part_001) computes the transposed-convention
closed form. -/
theorem m_covariance_gpu_char {α : Type} [Field α] {M : Mat α} (h : M.wf) :
    m_covariance_gpu M = some (covariance_gpu_form M) := by
  rw [m_covariance_gpu, m_copy_wf h, Option.map_some']
  congr 1
  have hA : ∀ a, a < M.rows → ∀ k, k < M.cols →
      (m_subtract_rows M (m_mean_row M)).elem a k
        = M.elem a k - (∑ t in Finset.range M.rows, M.elem t k) / (M.rows : α) := by
    intro a ha k hk
    unfold m_subtract_rows
    rw [mkMat_elem _ _ _ _ _ ha hk]
    unfold m_mean_row
    rw [mkMat_elem _ _ _ _ _ (by omega : (0 : Nat) < 1) hk]
  unfold covariance_gpu_form m_elem_mult
  simp only [m_subtract_rows, m_mean_row, mkMat_rows, mkMat_cols]
  apply mkMat_congr
  intro i hi j hj
  rw [mkMat_elem _ _ _ _ _ hi hj]
  refine congrArg (fun z => z * _) ?_
  refine Finset.sum_congr rfl ?_
  intro k hk
  have hk' := Finset.mem_range.mp hk
  have e1 := hA k hk' i hi
  have e2 := hA k hk' j hj
  unfold m_subtract_rows m_mean_row at e1 e2
  rw [e1, e2]

/-- A nonnegatively scaled Gram matrix `s * (sum_k f k i * f k j)` has a
nonnegative quadratic form. -/
theorem gram_psd {α : Type} [LinearOrderedField α] (n N : Nat) (f : Nat → Nat → α)
    (s : α) (hs : 0 ≤ s) (x : Nat → α) :
    0 ≤ ∑ i in Finset.range n, ∑ j in Finset.range n,
          x i * x j * ((∑ k in Finset.range N, f k i * f k j) * s) := by
  have h1 : (∑ i in Finset.range n, ∑ j in Finset.range n,
        x i * x j * ((∑ k in Finset.range N, f k i * f k j) * s))
      = ∑ i in Finset.range n, ∑ j in Finset.range n,
          ∑ k in Finset.range N, s * ((x i * f k i) * (x j * f k j)) := by
    refine Finset.sum_congr rfl fun i _ => Finset.sum_congr rfl fun j _ => ?_
    rw [Finset.sum_mul, Finset.mul_sum]
    exact Finset.sum_congr rfl fun k _ => by ring
  have h4 : ∀ k : Nat, (∑ i in Finset.range n, ∑ j in Finset.range n,
        s * ((x i * f k i) * (x j * f k j)))
      = s * ((∑ i in Finset.range n, x i * f k i) *
             (∑ j in Finset.range n, x j * f k j)) := by
    intro k
    rw [Finset.sum_mul_sum, Finset.mul_sum]
    exact Finset.sum_congr rfl fun i _ => by rw [Finset.mul_sum]
  rw [h1]
  rw [Finset.sum_congr rfl fun i _ => Finset.sum_comm]
  rw [Finset.sum_comm]
  refine Finset.sum_nonneg fun k _ => ?_
  rw [h4 k]
  exact mul_nonneg hs (mul_self_nonneg _)

/-- After scanning a nonempty column range the running minimum index is a
column index that was visited. -/
theorem nnFold_pos {α : Type} [LinearOrderedField α] (d : Nat → α) :
    ∀ n : Nat, 0 < n → ∃ r : Nat,
      ((List.range n).foldl (nnStep d) (-1, -1)).1 = (r : Int) ∧ r < n := by
  intro n
  induction n with
  | zero => intro h; omega
  | succ m ih =>
    intro _
    rw [List.range_succ m, List.foldl_append]
    simp only [List.foldl_cons, List.foldl_nil]
    rcases Nat.eq_zero_or_pos m with h0 | h0
    · subst h0
      simp only [List.range_zero, List.foldl_nil]
      unfold nnStep
      rw [if_pos (Or.inl rfl)]
      exact ⟨0, rfl, by omega⟩
    · obtain ⟨r, hr, hrm⟩ := ih h0
      unfold nnStep
      split
      · exact ⟨m, rfl, by omega⟩
      · exact ⟨r, hr, by omega⟩

/-! ### Claim theorems -/

/-- C10: for every projection matrix `P`, single-column query `P_test` and
distance function, `nearest_neighbor` returns -1 if and only if `P` has
zero columns, and with at least one column the returned index lies in
`[0, P.cols)`, so the orchestrator's lookup of the matched training entry
is in bounds. -/
theorem nearest_neighbor_index_bounds {α : Type} [LinearOrderedField α]
    (P P_test : Mat α) (dist_func : Mat α → Nat → Mat α → Nat → α) :
    (nearest_neighbor P P_test dist_func = -1 ↔ P.cols = 0) ∧
    (0 < P.cols → 0 ≤ nearest_neighbor P P_test dist_func ∧
      nearest_neighbor P P_test dist_func < (P.cols : Int)) := by
  constructor
  · constructor
    · intro h
      by_contra hc
      have hpos : 0 < P.cols := Nat.pos_of_ne_zero hc
      obtain ⟨r, hr, _⟩ := nnFold_pos (fun j => dist_func P_test 0 P j) P.cols hpos
      rw [nearest_neighbor, hr] at h
      omega
    · intro h
      rw [nearest_neighbor, h]
      rfl
  · intro hpos
    obtain ⟨r, hr, hrlt⟩ := nnFold_pos (fun j => dist_func P_test 0 P j) P.cols hpos
    rw [nearest_neighbor, hr]
    omega

/-- Witness for C10 at a concrete projection matrix and query with the
squared-L2 kernel metric. -/
theorem nearest_neighbor_index_bounds_witness :
    (nearest_neighbor (⟨2, 2, [1, 0, 0, 1]⟩ : Mat ℚ) ⟨2, 1, [1, 0]⟩ m_dist_L2 = -1
       ↔ (2 : Nat) = 0) ∧
    (0 < (2 : Nat) →
      0 ≤ nearest_neighbor (⟨2, 2, [1, 0, 0, 1]⟩ : Mat ℚ) ⟨2, 1, [1, 0]⟩ m_dist_L2 ∧
      nearest_neighbor (⟨2, 2, [1, 0, 0, 1]⟩ : Mat ℚ) ⟨2, 1, [1, 0]⟩ m_dist_L2
        < ((2 : Nat) : Int)) :=
  nearest_neighbor_index_bounds ⟨2, 2, [1, 0, 0, 1]⟩ ⟨2, 1, [1, 0]⟩ m_dist_L2

/-- C4: writing any matrix with `m_fwrite` and reading the produced bytes
back with `m_fread` yields a matrix with the same rows, the same cols and
every element exactly equal — and consumes exactly the written tokens. -/
theorem m_fwrite_fread_roundtrip (M : Mat ℚ) (rest : List (Tok ℚ)) (h : M.wf) :
    m_fread (m_fwrite M ++ rest) = some (M, rest) :=
  m_fread_fwrite h rest

/-- Witness for C4 on a concrete 2 × 2 matrix. -/
theorem m_fwrite_fread_roundtrip_witness :
    (⟨2, 2, [1, 2, 3, 4]⟩ : Mat ℚ).wf ∧
    m_fread (m_fwrite (⟨2, 2, [1, 2, 3, 4]⟩ : Mat ℚ) ++ [])
      = some (⟨2, 2, [1, 2, 3, 4]⟩, []) :=
  ⟨by decide, m_fwrite_fread_roundtrip ⟨2, 2, [1, 2, 3, 4]⟩ [] (by decide)⟩

/-- C5: under the element-count precondition, `m_reshape` succeeds and the
element of the result at row-major position `i` equals the element of `M`
at row-major position `i` — a row-major reinterpretation of the
column-major store. -/
theorem m_reshape_row_major (M : Mat ℚ) (nr nc : Nat)
    (h : M.rows * M.cols = nr * nc) :
    ∃ R, m_reshape M nr nc = some R ∧ R.rows = nr ∧ R.cols = nc ∧
      ∀ i, i < nr * nc →
        R.elem (i / nc) (i % nc) = M.elem (i / M.cols) (i % M.cols) := by
  rw [m_reshape, if_pos h]
  refine ⟨_, rfl, rfl, rfl, ?_⟩
  intro i hi
  have hnc : 0 < nc := by
    rcases Nat.eq_zero_or_pos nc with h0 | h0
    · subst h0; omega
    · exact h0
  have hdiv : i / nc < nr := by
    rw [Nat.div_lt_iff_lt_mul hnc]; omega
  have hmod : i % nc < nc := Nat.mod_lt _ hnc
  rw [mkMat_elem _ _ _ _ _ hdiv hmod]
  rw [Nat.div_add_mod' i nc]

/-- Witness for C5: reshaping a 2 × 2 matrix to 1 × 4. -/
theorem m_reshape_row_major_witness :
    ∃ R, m_reshape (⟨2, 2, [1, 2, 3, 4]⟩ : Mat ℚ) 1 4 = some R ∧
      R.rows = 1 ∧ R.cols = 4 ∧
      ∀ i, i < 1 * 4 →
        R.elem (i / 4) (i % 4)
          = (⟨2, 2, [1, 2, 3, 4]⟩ : Mat ℚ).elem (i / 2) (i % 2) :=
  m_reshape_row_major ⟨2, 2, [1, 2, 3, 4]⟩ 1 4 (by decide)

/-- C6: multiplying any matrix by `m_identity M.cols` on the right succeeds
and reproduces `M`'s shape and every element exactly (exact arithmetic). -/
theorem m_product_identity_exact (M : Mat ℚ) :
    ∃ C, m_product M (m_identity M.cols) = some C ∧
      C.rows = M.rows ∧ C.cols = M.cols ∧
      ∀ i j, i < M.rows → j < M.cols → C.elem i j = M.elem i j := by
  have hcond : M.cols = (m_identity M.cols : Mat ℚ).rows := rfl
  rw [m_product, if_pos hcond]
  refine ⟨_, rfl, rfl, rfl, ?_⟩
  intro i j hi hj
  rw [show (m_identity M.cols : Mat ℚ).cols = M.cols from rfl]
  rw [mkMat_elem _ _ _ _ _ hi hj]
  have hB : ∀ k, k < M.cols →
      (m_identity M.cols : Mat ℚ).elem k j = if k = j then 1 else 0 := by
    intro k hk
    unfold m_identity
    rw [mkMat_elem _ _ _ _ _ hk hj]
  calc (∑ k in Finset.range M.cols, M.elem i k * (m_identity M.cols).elem k j)
      = ∑ k in Finset.range M.cols, (if k = j then M.elem i k else 0) := by
        refine Finset.sum_congr rfl fun k hk => ?_
        rw [hB k (Finset.mem_range.mp hk)]
        by_cases hkj : k = j
        · rw [if_pos hkj, if_pos hkj, mul_one]
        · rw [if_neg hkj, if_neg hkj, mul_zero]
    _ = M.elem i j := by
        rw [Finset.sum_ite_eq' (Finset.range M.cols) j (fun k => M.elem i k)]
        exact if_pos (Finset.mem_range.mpr hj)

/-- Witness for C6 on a concrete 2 × 3 matrix. -/
theorem m_product_identity_exact_witness :
    ∃ C, m_product (⟨2, 3, [1, 2, 3, 4, 5, 6]⟩ : Mat ℚ) (m_identity 3) = some C ∧
      C.rows = 2 ∧ C.cols = 3 ∧
      ∀ i j, i < 2 → j < 3 →
        C.elem i j = (⟨2, 3, [1, 2, 3, 4, 5, 6]⟩ : Mat ℚ).elem i j :=
  m_product_identity_exact ⟨2, 3, [1, 2, 3, 4, 5, 6]⟩

/-- C9: the Identity feature layer is a no-op pass-through: `compute`
returns no model (NULL) for every training matrix, label vector and class
count, and `project` returns a copy equal to its input. -/
theorem identity_layer_noop (X : Mat ℚ) (y : List Int) (c : Int) :
    identityLayer_compute X y c = none ∧
    (X.wf → identityLayer_project X = some X) :=
  ⟨rfl, fun h => m_copy_wf h⟩

/-- Witness for C9 on a concrete 2 × 1 matrix. -/
theorem identity_layer_noop_witness :
    identityLayer_compute (⟨2, 1, [5, 7]⟩ : Mat ℚ) [0, 1] 2 = none ∧
    ((⟨2, 1, [5, 7]⟩ : Mat ℚ).wf →
      identityLayer_project (⟨2, 1, [5, 7]⟩ : Mat ℚ) = some ⟨2, 1, [5, 7]⟩) :=
  identity_layer_noop ⟨2, 1, [5, 7]⟩ [0, 1] 2

/-- C8: `m_copy_columns(M, begin, end)` succeeds exactly when
`0 <= begin < end <= M.cols`; on success the result is `M.rows x
(end - begin)` with `C(i,j) = M(i, begin + j)`.  On the 4 × 4 magic-square
matrix, `m_copy` yields an identical matrix and `m_copy_columns(·, 1, 3)`
yields the 4 × 2 matrix of columns 1–2. -/
theorem m_copy_columns_spec :
    (∀ (M : Mat ℚ) (b e : Int),
      ((m_copy_columns M b e).isSome ↔ 0 ≤ b ∧ b < e ∧ e ≤ (M.cols : Int)) ∧
      (∀ C, m_copy_columns M b e = some C →
        C.rows = M.rows ∧ (C.cols : Int) = e - b ∧
        ∀ i j, i < M.rows → j < C.cols → C.elem i j = M.elem i (b.toNat + j))) ∧
    m_copy (⟨4, 4, [16, 5, 9, 4, 2, 11, 7, 14, 3, 10, 6, 15, 13, 8, 12, 1]⟩ : Mat ℚ)
      = some ⟨4, 4, [16, 5, 9, 4, 2, 11, 7, 14, 3, 10, 6, 15, 13, 8, 12, 1]⟩ ∧
    m_copy_columns
        (⟨4, 4, [16, 5, 9, 4, 2, 11, 7, 14, 3, 10, 6, 15, 13, 8, 12, 1]⟩ : Mat ℚ) 1 3
      = some ⟨4, 2, [2, 11, 7, 14, 3, 10, 6, 15]⟩ := by
  refine ⟨?_, by decide, by decide⟩
  intro M b e
  constructor
  · unfold m_copy_columns
    split_ifs with hg
    · simpa using hg
    · simpa using hg
  · intro C hC
    unfold m_copy_columns at hC
    split_ifs at hC with hg
    obtain ⟨hb, hbe, he⟩ := hg
    have hCeq := Option.some.inj hC
    subst hCeq
    refine ⟨rfl, ?_, ?_⟩
    · show ((e - b).toNat : Int) = e - b
      omega
    intro i j hi hj
    show ((M.data.drop (b.toNat * M.rows)).take
            (M.rows * (e - b).toNat)).getD (i + j * M.rows) 0
        = M.elem i (b.toNat + j)
    have hj' : j < (e - b).toNat := hj
    have h2 : M.rows + j * M.rows = (j + 1) * M.rows := by ring
    have h3 : (j + 1) * M.rows ≤ (e - b).toNat * M.rows :=
      Nat.mul_le_mul_right M.rows hj'
    have h4 : (e - b).toNat * M.rows = M.rows * (e - b).toNat :=
      Nat.mul_comm _ _
    have hbound : i + j * M.rows < M.rows * (e - b).toNat := by omega
    rw [List.getD_eq_getElem?_getD, List.getElem?_take, if_pos hbound,
      List.getElem?_drop]
    have hidx : b.toNat * M.rows + (i + j * M.rows)
        = i + (b.toNat + j) * M.rows := by ring
    rw [hidx, Mat.elem, List.getD_eq_getElem?_getD]

/-- Witness for C8's universal part: copying column 0 of a 2 × 2 matrix. -/
theorem m_copy_columns_spec_witness :
    ((m_copy_columns (⟨2, 2, [1, 2, 3, 4]⟩ : Mat ℚ) 0 1).isSome ↔
      0 ≤ (0 : Int) ∧ (0 : Int) < 1 ∧ (1 : Int) ≤ (((⟨2, 2, [1, 2, 3, 4]⟩ : Mat ℚ).cols : Int))) ∧
    ((⟨2, 1, [1, 2]⟩ : Mat ℚ).rows = (⟨2, 2, [1, 2, 3, 4]⟩ : Mat ℚ).rows ∧
      (((⟨2, 1, [1, 2]⟩ : Mat ℚ).cols : Int) = 1 - 0) ∧
      ∀ i j, i < (⟨2, 2, [1, 2, 3, 4]⟩ : Mat ℚ).rows → j < (⟨2, 1, [1, 2]⟩ : Mat ℚ).cols →
        (⟨2, 1, [1, 2]⟩ : Mat ℚ).elem i j
          = (⟨2, 2, [1, 2, 3, 4]⟩ : Mat ℚ).elem i ((0 : Int).toNat + j)) :=
  ⟨(m_copy_columns_spec.1 ⟨2, 2, [1, 2, 3, 4]⟩ 0 1).1,
   (m_copy_columns_spec.1 ⟨2, 2, [1, 2, 3, 4]⟩ 0 1).2 ⟨2, 1, [1, 2]⟩ (by decide)⟩

/-- C1 (amended): for the matrix kernel bundled with the database
orchestrator (part_002), `m_covariance` computes exactly the spec's
covariance — mean column removed from every column, `(1/(n-1)) * A * A_tr`
with `n` the column count and divisor floored at 1 — and the result is
`M.rows × M.rows`. -/
theorem covariance_follows_spec (M : Mat ℚ) (h : M.wf) :
    m_covariance M = some (covariance_spec M) ∧
    (covariance_spec M).rows = M.rows ∧ (covariance_spec M).cols = M.rows :=
  ⟨m_covariance_char h, rfl, rfl⟩

/-- Witness for C1 on a concrete 2 × 2 matrix. -/
theorem covariance_follows_spec_witness :
    (⟨2, 2, [1, 2, 3, 4]⟩ : Mat ℚ).wf ∧
    (m_covariance (⟨2, 2, [1, 2, 3, 4]⟩ : Mat ℚ)
        = some (covariance_spec ⟨2, 2, [1, 2, 3, 4]⟩) ∧
      (covariance_spec (⟨2, 2, [1, 2, 3, 4]⟩ : Mat ℚ)).rows = 2 ∧
      (covariance_spec (⟨2, 2, [1, 2, 3, 4]⟩ : Mat ℚ)).cols = 2) :=
  ⟨by decide, covariance_follows_spec ⟨2, 2, [1, 2, 3, 4]⟩ (by decide)⟩

/-- C1 counterexample: the claim asserts `m_covariance(M)` is always
`M.rows × M.rows`, but the `m_covariance` of the CUDA-capable matrix
library (part_001) returns a `cols × cols` matrix — on the well-formed
2 × 3 matrix below it is 3 × 3 while `M.rows = 2`. -/
theorem covariance_gpu_shape_refutes_claim :
    (m_covariance_gpu (⟨2, 3, [1, 2, 3, 4, 5, 6]⟩ : Mat ℚ)).map
        (fun C => (C.rows, C.cols)) = some (3, 3) ∧
    (⟨2, 3, [1, 2, 3, 4, 5, 6]⟩ : Mat ℚ).rows = 2 := by
  constructor
  · rw [m_covariance_gpu_char (by decide)]
    rfl
  · rfl

/-- C7: for every well-formed matrix with at least 2 columns, the
covariance matrix (either library variant) is symmetric on valid indices
and has a nonnegative quadratic form, in exact arithmetic. -/
theorem m_covariance_symmetric_psd (M : Mat ℚ) (hwf : M.wf) (hc : 2 ≤ M.cols) :
    (∀ C, m_covariance M = some C →
      (∀ i j, i < C.rows → j < C.rows → C.elem i j = C.elem j i) ∧
      ∀ x : Nat → ℚ, 0 ≤ ∑ i in Finset.range C.rows, ∑ j in Finset.range C.rows,
          x i * x j * C.elem i j) ∧
    (∀ C, m_covariance_gpu M = some C →
      (∀ i j, i < C.rows → j < C.rows → C.elem i j = C.elem j i) ∧
      ∀ x : Nat → ℚ, 0 ≤ ∑ i in Finset.range C.rows, ∑ j in Finset.range C.rows,
          x i * x j * C.elem i j) := by
  constructor
  · intro C hC
    rw [m_covariance_char hwf] at hC
    obtain rfl := Option.some.inj hC
    have hrows : (covariance_spec M : Mat ℚ).rows = M.rows := rfl
    have helem : ∀ i j, i < M.rows → j < M.rows →
        (covariance_spec M : Mat ℚ).elem i j
          = (1 / (if M.cols ≤ 1 then 1 else (M.cols : ℚ) - 1)) *
            ∑ k in Finset.range M.cols,
              (M.elem i k - (∑ t in Finset.range M.cols, M.elem i t) / (M.cols : ℚ)) *
              (M.elem j k - (∑ t in Finset.range M.cols, M.elem j t) / (M.cols : ℚ)) := by
      intro i j hi hj
      unfold covariance_spec
      rw [mkMat_elem _ _ _ _ _ hi hj]
    have hdpos : (0 : ℚ) < (if M.cols ≤ 1 then 1 else (M.cols : ℚ) - 1) := by
      rw [if_neg (by omega)]
      have h2 : (2 : ℚ) ≤ (M.cols : ℚ) := by exact_mod_cast hc
      linarith
    have hs : (0 : ℚ) ≤ 1 / (if M.cols ≤ 1 then 1 else (M.cols : ℚ) - 1) := by
      positivity
    constructor
    · intro i j hi hj
      rw [hrows] at hi hj
      rw [helem i j hi hj, helem j i hj hi]
      refine congrArg _ ?_
      exact Finset.sum_congr rfl fun k _ => mul_comm _ _
    · intro x
      rw [hrows]
      have hgoal : (∑ i in Finset.range M.rows, ∑ j in Finset.range M.rows,
            x i * x j * (covariance_spec M : Mat ℚ).elem i j)
          = ∑ i in Finset.range M.rows, ∑ j in Finset.range M.rows,
              x i * x j *
                ((∑ k in Finset.range M.cols,
                  (fun k i => M.elem i k -
                    (∑ t in Finset.range M.cols, M.elem i t) / (M.cols : ℚ)) k i *
                  (fun k i => M.elem i k -
                    (∑ t in Finset.range M.cols, M.elem i t) / (M.cols : ℚ)) k j) *
                 (1 / (if M.cols ≤ 1 then 1 else (M.cols : ℚ) - 1))) := by
        refine Finset.sum_congr rfl fun i hi => Finset.sum_congr rfl fun j hj => ?_
        rw [helem i j (Finset.mem_range.mp hi) (Finset.mem_range.mp hj)]
        ring
      rw [hgoal]
      exact gram_psd M.rows M.cols _ _ hs x
  · intro C hC
    rw [m_covariance_gpu_char hwf] at hC
    obtain rfl := Option.some.inj hC
    have hrows : (covariance_gpu_form M : Mat ℚ).rows = M.cols := rfl
    have helem : ∀ i j, i < M.cols → j < M.cols →
        (covariance_gpu_form M : Mat ℚ).elem i j
          = (∑ k in Finset.range M.rows,
              (M.elem k i - (∑ t in Finset.range M.rows, M.elem t i) / (M.rows : ℚ)) *
              (M.elem k j - (∑ t in Finset.range M.rows, M.elem t j) / (M.rows : ℚ))) *
            (1 / (if 1 < M.rows then (M.rows : ℚ) - 1 else 1)) := by
      intro i j hi hj
      unfold covariance_gpu_form
      rw [mkMat_elem _ _ _ _ _ hi hj]
    have hdpos : (0 : ℚ) < (if 1 < M.rows then (M.rows : ℚ) - 1 else 1) := by
      by_cases h1 : 1 < M.rows
      · rw [if_pos h1]
        have h2 : (2 : ℚ) ≤ (M.rows : ℚ) := by exact_mod_cast h1
        linarith
      · rw [if_neg h1]
        norm_num
    have hs : (0 : ℚ) ≤ 1 / (if 1 < M.rows then (M.rows : ℚ) - 1 else 1) := by
      positivity
    constructor
    · intro i j hi hj
      rw [hrows] at hi hj
      rw [helem i j hi hj, helem j i hj hi]
      refine congrArg (fun z => z * _) ?_
      exact Finset.sum_congr rfl fun k _ => mul_comm _ _
    · intro x
      rw [hrows]
      have hgoal : (∑ i in Finset.range M.cols, ∑ j in Finset.range M.cols,
            x i * x j * (covariance_gpu_form M : Mat ℚ).elem i j)
          = ∑ i in Finset.range M.cols, ∑ j in Finset.range M.cols,
              x i * x j *
                ((∑ k in Finset.range M.rows,
                  (fun k i => M.elem k i -
                    (∑ t in Finset.range M.rows, M.elem t i) / (M.rows : ℚ)) k i *
                  (fun k i => M.elem k i -
                    (∑ t in Finset.range M.rows, M.elem t i) / (M.rows : ℚ)) k j) *
                 (1 / (if 1 < M.rows then (M.rows : ℚ) - 1 else 1))) := by
        refine Finset.sum_congr rfl fun i hi => Finset.sum_congr rfl fun j hj => ?_
        rw [helem i j (Finset.mem_range.mp hi) (Finset.mem_range.mp hj)]
      rw [hgoal]
      exact gram_psd M.cols M.rows _ _ hs x

/-- Witness for C7 at a concrete well-formed 2 × 2 matrix. -/
theorem m_covariance_symmetric_psd_witness :
    (⟨2, 2, [1, 2, 3, 4]⟩ : Mat ℚ).wf ∧ 2 ≤ (⟨2, 2, [1, 2, 3, 4]⟩ : Mat ℚ).cols ∧
    ((∀ C, m_covariance (⟨2, 2, [1, 2, 3, 4]⟩ : Mat ℚ) = some C →
      (∀ i j, i < C.rows → j < C.rows → C.elem i j = C.elem j i) ∧
      ∀ x : Nat → ℚ, 0 ≤ ∑ i in Finset.range C.rows, ∑ j in Finset.range C.rows,
          x i * x j * C.elem i j) ∧
    (∀ C, m_covariance_gpu (⟨2, 2, [1, 2, 3, 4]⟩ : Mat ℚ) = some C →
      (∀ i j, i < C.rows → j < C.rows → C.elem i j = C.elem j i) ∧
      ∀ x : Nat → ℚ, 0 ≤ ∑ i in Finset.range C.rows, ∑ j in Finset.range C.rows,
          x i * x j * C.elem i j)) :=
  ⟨by decide, by decide,
   m_covariance_symmetric_psd ⟨2, 2, [1, 2, 3, 4]⟩ (by decide) (by decide)⟩

/-- C3: for a trained database with at least one algorithm enabled,
`db_save` followed by `db_load` with the same flags restores the mean face
and, per enabled algorithm in the fixed order PCA, LDA, ICA, the transposed
basis and training projection exactly; afterwards `num_images` is the
column count of the loaded PCA projection and `num_dimensions` the row
count of the loaded mean face — both from matrix shapes, not the
manifest. -/
theorem db_save_load_roundtrip (db : Database ℚ)
    (h : (db.pca || db.lda || db.ica) = true)
    (hm : db.mean_face.wf) (hw : db.W_pca_tr.wf) (hp : db.P_pca.wf)
    (hwl : db.lda = true → db.W_lda_tr.wf) (hpl : db.lda = true → db.P_lda.wf)
    (hwi : db.ica = true → db.W_ica_tr.wf) (hpi : db.ica = true → db.P_ica.wf) :
    ∃ db' : Database ℚ,
      db_load_data db.pca db.lda db.ica (db_save_data db) = some db' ∧
      db'.mean_face = db.mean_face ∧
      db'.W_pca_tr = db.W_pca_tr ∧ db'.P_pca = db.P_pca ∧
      (db.lda = true → db'.W_lda_tr = db.W_lda_tr ∧ db'.P_lda = db.P_lda) ∧
      (db.ica = true → db'.W_ica_tr = db.W_ica_tr ∧ db'.P_ica = db.P_ica) ∧
      db'.num_images = db.P_pca.cols ∧ db'.num_dimensions = db.mean_face.rows := by
  cases hl : db.lda <;> cases hi : db.ica
  · -- lda = false, ica = false
    have hpc : db.pca = true := by
      rw [hl, hi] at h
      simpa using h
    have hload : db_load_data db.pca false false (db_save_data db)
        = some ⟨db.pca, false, false, db.P_pca.cols, db.mean_face.rows,
                db.mean_face, db.W_pca_tr, db.P_pca,
                ⟨0, 0, []⟩, ⟨0, 0, []⟩, ⟨0, 0, []⟩, ⟨0, 0, []⟩⟩ := by
      simp [db_save_data, db_load_data, db_load_block, h, hl, hi, hpc,
        List.append_assoc, m_fread_fwrite hm, m_fread_fwrite hw,
        m_fread_fwrite_nil hp]
    exact ⟨_, hload, rfl, rfl, rfl, by simp, by simp, rfl, rfl⟩
  · -- lda = false, ica = true
    have hload : db_load_data db.pca false true (db_save_data db)
        = some ⟨db.pca, false, true, db.P_pca.cols, db.mean_face.rows,
                db.mean_face, db.W_pca_tr, db.P_pca,
                ⟨0, 0, []⟩, ⟨0, 0, []⟩, db.W_ica_tr, db.P_ica⟩ := by
      simp [db_save_data, db_load_data, db_load_block, h, hl, hi,
        List.append_assoc, m_fread_fwrite hm, m_fread_fwrite hw,
        m_fread_fwrite hp, m_fread_fwrite (hwi hi), m_fread_fwrite_nil (hpi hi)]
    exact ⟨_, hload, rfl, rfl, rfl, by simp, fun _ => ⟨rfl, rfl⟩, rfl, rfl⟩
  · -- lda = true, ica = false
    have hload : db_load_data db.pca true false (db_save_data db)
        = some ⟨db.pca, true, false, db.P_pca.cols, db.mean_face.rows,
                db.mean_face, db.W_pca_tr, db.P_pca,
                db.W_lda_tr, db.P_lda, ⟨0, 0, []⟩, ⟨0, 0, []⟩⟩ := by
      simp [db_save_data, db_load_data, db_load_block, h, hl, hi,
        List.append_assoc, m_fread_fwrite hm, m_fread_fwrite hw,
        m_fread_fwrite hp, m_fread_fwrite (hwl hl), m_fread_fwrite_nil (hpl hl)]
    exact ⟨_, hload, rfl, rfl, rfl, fun _ => ⟨rfl, rfl⟩, by simp, rfl, rfl⟩
  · -- lda = true, ica = true
    have hload : db_load_data db.pca true true (db_save_data db)
        = some ⟨db.pca, true, true, db.P_pca.cols, db.mean_face.rows,
                db.mean_face, db.W_pca_tr, db.P_pca,
                db.W_lda_tr, db.P_lda, db.W_ica_tr, db.P_ica⟩ := by
      simp [db_save_data, db_load_data, db_load_block, h, hl, hi,
        List.append_assoc, m_fread_fwrite hm, m_fread_fwrite hw,
        m_fread_fwrite hp, m_fread_fwrite (hwl hl), m_fread_fwrite (hpl hl),
        m_fread_fwrite (hwi hi), m_fread_fwrite_nil (hpi hi)]
    exact ⟨_, hload, rfl, rfl, rfl, fun _ => ⟨rfl, rfl⟩, fun _ => ⟨rfl, rfl⟩, rfl, rfl⟩

/-- Witness for C3: a PCA-only database with concrete matrices
round-trips through save and load. -/
theorem db_save_load_roundtrip_witness :
    ∃ db' : Database ℚ,
      db_load_data true false false
          (db_save_data (⟨true, false, false, 0, 0, ⟨2, 1, [1, 2]⟩, ⟨1, 2, [1, 0]⟩,
            ⟨1, 1, [3]⟩, ⟨1, 1, [0]⟩, ⟨1, 1, [0]⟩, ⟨1, 1, [0]⟩, ⟨1, 1, [0]⟩⟩ : Database ℚ))
        = some db' ∧
      db'.mean_face = (⟨2, 1, [1, 2]⟩ : Mat ℚ) ∧
      db'.W_pca_tr = (⟨1, 2, [1, 0]⟩ : Mat ℚ) ∧ db'.P_pca = (⟨1, 1, [3]⟩ : Mat ℚ) ∧
      (false = true → db'.W_lda_tr = (⟨1, 1, [0]⟩ : Mat ℚ) ∧
        db'.P_lda = (⟨1, 1, [0]⟩ : Mat ℚ)) ∧
      (false = true → db'.W_ica_tr = (⟨1, 1, [0]⟩ : Mat ℚ) ∧
        db'.P_ica = (⟨1, 1, [0]⟩ : Mat ℚ)) ∧
      db'.num_images = 1 ∧ db'.num_dimensions = 2 :=
  db_save_load_roundtrip
    ⟨true, false, false, 0, 0, ⟨2, 1, [1, 2]⟩, ⟨1, 2, [1, 0]⟩,
      ⟨1, 1, [3]⟩, ⟨1, 1, [0]⟩, ⟨1, 1, [0]⟩, ⟨1, 1, [0]⟩, ⟨1, 1, [0]⟩⟩
    (by decide) (by decide) (by decide) (by decide)
    (by decide) (by decide) (by decide) (by decide)

/-- C2 (code bug): with the negated-cosine metric the `-1` initialisation
of `min_dist` collides with a genuine distance of exactly `-1` (a perfect
directional match).  On `P` with columns `e1, e2` and query `e1`, column 0
has distance `-1` and column 1 distance `0`, yet `nearest_neighbor`
returns 1: the stored running minimum `-1` looks "unset", so the strictly
worse column 1 overwrites it.  This contradicts the documented contract of
returning the minimum-distance column. -/
theorem nearest_neighbor_cos_sentinel_bug :
    nearest_neighbor (⟨2, 2, [1, 0, 0, 1]⟩ : Mat ℝ) ⟨2, 1, [1, 0]⟩ m_dist_COS = 1 ∧
    m_dist_COS (⟨2, 1, [1, 0]⟩ : Mat ℝ) 0 ⟨2, 2, [1, 0, 0, 1]⟩ 0
      < m_dist_COS (⟨2, 1, [1, 0]⟩ : Mat ℝ) 0 ⟨2, 2, [1, 0, 0, 1]⟩ 1 := by
  have hd0 : m_dist_COS (⟨2, 1, [1, 0]⟩ : Mat ℝ) 0 ⟨2, 2, [1, 0, 0, 1]⟩ 0 = -1 := by
    unfold m_dist_COS
    simp [Mat.elem, List.getD, Finset.sum_range_succ, Finset.sum_range_zero]
  have hd1 : m_dist_COS (⟨2, 1, [1, 0]⟩ : Mat ℝ) 0 ⟨2, 2, [1, 0, 0, 1]⟩ 1 = 0 := by
    unfold m_dist_COS
    simp [Mat.elem, List.getD, Finset.sum_range_succ, Finset.sum_range_zero]
  have hstep1 : nnStep (fun j => m_dist_COS (⟨2, 1, [1, 0]⟩ : Mat ℝ) 0 ⟨2, 2, [1, 0, 0, 1]⟩ j)
      (-1, -1) 0 = (0, m_dist_COS (⟨2, 1, [1, 0]⟩ : Mat ℝ) 0 ⟨2, 2, [1, 0, 0, 1]⟩ 0) := by
    unfold nnStep
    rw [if_pos (Or.inl rfl)]
    norm_num
  have hstep2 : nnStep (fun j => m_dist_COS (⟨2, 1, [1, 0]⟩ : Mat ℝ) 0 ⟨2, 2, [1, 0, 0, 1]⟩ j)
      (0, m_dist_COS (⟨2, 1, [1, 0]⟩ : Mat ℝ) 0 ⟨2, 2, [1, 0, 0, 1]⟩ 0) 1
      = (1, m_dist_COS (⟨2, 1, [1, 0]⟩ : Mat ℝ) 0 ⟨2, 2, [1, 0, 0, 1]⟩ 1) := by
    unfold nnStep
    rw [if_pos (Or.inl (by rw [hd0]))]
    norm_num
  constructor
  · show ((List.range 2).foldl
        (nnStep (fun j => m_dist_COS (⟨2, 1, [1, 0]⟩ : Mat ℝ) 0 ⟨2, 2, [1, 0, 0, 1]⟩ j))
        (-1, -1)).1 = 1
    rw [show List.range 2 = [0, 1] from rfl]
    rw [List.foldl_cons, List.foldl_cons, List.foldl_nil, hstep1, hstep2]
  · rw [hd0, hd1]
    norm_num
